import Mathlib

/-!
Shallow embedding of the caching layer of `src/Challenge 3/v3.py` (the
repository's most complete cache implementation), together with the
positional eviction of `src/Challenge 3/v2.py` used by the
refinement-equivalence claim.

Modelling conventions:
* Timestamps are natural numbers.  Python reads `time.time()` several times
  inside one operation; the embedding passes a single instant `now` to each
  public operation, which we control explicitly (the claims only compare
  clock readings, never subtract them).
* The `OrderedDict` store becomes a list of entries in recency order, the
  head being the least-recently-used end and the tail the most-recently-used
  end; keys are unique in every state the program can reach.
* The persisted file becomes an optional list of entries (`none` = no file);
  `_save_to_storage` overwrites it with the current entry list.  I/O errors,
  JSON parsing and the version/timestamp header carry no information the
  claims need and are outside the embedding.
* Values are an opaque type parameter `V`; the cache never inspects them.
-/

namespace CacheV3

/-- `CacheEntry` of v3.py: one cached value plus its metadata. -/
structure CacheEntry (V : Type) where
  key : String
  value : V
  created_at : Nat
  expires_at : Option Nat
  last_accessed : Nat
deriving DecidableEq

/-- `CacheEntry.is_expired` (v3.py line 43): expired iff `expires_at` is
present and strictly in the past. -/
def CacheEntry.is_expired (e : CacheEntry V) (now : Nat) : Bool :=
  match e.expires_at with
  | none => false
  | some t => decide (now > t)

/-- `CacheConfig` of v3.py after successful validation. -/
structure CacheConfig where
  max_size : Nat
  default_ttl : Option Nat
  enable_persistence : Bool
  auto_cleanup : Bool
deriving DecidableEq

/-- `CacheConfig.__init__` (v3.py lines 87-103): rejects a non-positive
`max_size` (the `ValueError` becomes `none`); otherwise stores the options,
with `enable_persistence` anded with the presence of a storage file. -/
def CacheConfig.make (max_size : Int) (default_ttl : Option Nat)
    (has_storage_file : Bool) (enable_persistence : Bool)
    (auto_cleanup : Bool) : Option CacheConfig :=
  if max_size ≤ 0 then none
  else some { max_size := max_size.toNat
              default_ttl := default_ttl
              enable_persistence := enable_persistence && has_storage_file
              auto_cleanup := auto_cleanup }

/-- The `_stats` dictionary of v3.py. -/
structure CacheStats where
  hits : Nat
  misses : Nat
  evictions : Nat
  expirations : Nat
deriving DecidableEq

/-- The mutable state of a v3.py `Cache`: configuration, the ordered store
(head = least recently used), the stats counters, and the contents of the
persistence file (`none` = file absent). -/
structure Cache (V : Type) where
  config : CacheConfig
  cache : List (CacheEntry V)
  stats : CacheStats
  storage : Option (List (CacheEntry V))
deriving DecidableEq

/-- Lookup in the ordered store: the entry stored under `key`, if any. -/
def lookupEntry (key : String) : List (CacheEntry V) → Option (CacheEntry V)
  | [] => none
  | e :: es => if e.key = key then some e else lookupEntry key es

/-- `del self._cache[key]`: remove the entry stored under `key`. -/
def removeKey (key : String) (l : List (CacheEntry V)) : List (CacheEntry V) :=
  l.filter (fun e => e.key ≠ key)

/-- `_save_to_storage` (v3.py lines 382-403): overwrite the file with the
current ordered entry list. -/
def saveToStorage (s : Cache V) : Cache V :=
  { s with storage := some s.cache }

/-- `_cleanup_expired` (v3.py lines 361-380): drop every expired entry,
count each as one expiration, and save when something was removed and
persistence is enabled. -/
def cleanupExpired (now : Nat) (s : Cache V) : Cache V :=
  let expiredCount := (s.cache.filter (fun e => e.is_expired now)).length
  let s1 : Cache V :=
    { s with cache := s.cache.filter (fun e => !e.is_expired now)
             stats := { s.stats with
                        expirations := s.stats.expirations + expiredCount } }
  if expiredCount > 0 && s.config.enable_persistence then saveToStorage s1 else s1

/-- One comparison step of Python's `min` keyed on `last_accessed`: keep
the earlier candidate unless the new one is strictly older. -/
def lruStep (acc x : CacheEntry V) : CacheEntry V :=
  if x.last_accessed < acc.last_accessed then x else acc

/-- `min(self._cache.keys(), key=lambda k: self._cache[k].last_accessed)`
(v3.py lines 355-356): the first entry in recency order attaining the
minimal `last_accessed` (Python's `min` keeps the earliest of equals). -/
def lruEntry : List (CacheEntry V) → Option (CacheEntry V)
  | [] => none
  | e :: es => some (es.foldl lruStep e)

/-- `_evict_lru` (v3.py lines 349-359): on a non-empty store delete the
entry with the oldest `last_accessed` and count one eviction; returns
nothing to the caller. -/
def evictLRU (s : Cache V) : Cache V :=
  match lruEntry s.cache with
  | none => s
  | some lru =>
    { s with cache := removeKey lru.key s.cache
             stats := { s.stats with evictions := s.stats.evictions + 1 } }

/-- Outcome of `Cache.set`: the `ValueError` raised on an empty key, or the
`True` returned on success (the `except` branch returning `False` is
unreachable in the embedding, where storage writes cannot throw). -/
inductive SetResult where
  | raised
  | succeeded
deriving DecidableEq

/-- The capacity check of `Cache.set` (v3.py lines 168-175): when the key
is not present and the store is at capacity, first clean out expired
entries unconditionally, then evict the LRU entry only if still at
capacity. -/
def setEvictPhase (key : String) (now : Nat) (s1 : Cache V) : Cache V :=
  if (lookupEntry key s1.cache).isNone
      && decide (s1.cache.length ≥ s1.config.max_size) then
    let s1x := cleanupExpired now s1
    if s1x.cache.length ≥ s1x.config.max_size then evictLRU s1x else s1x
  else s1

/-- The entry record built by `Cache.set` (v3.py lines 177-188): the
effective TTL is the argument if given, else the configured default
(`dttl`); `expires_at` is the write time plus that TTL, absent when no TTL
applies; both timestamps are the write time. -/
def setNewEntry (key : String) (value : V) (ttl : Option Nat) (now : Nat)
    (dttl : Option Nat) : CacheEntry V :=
  { key := key
    value := value
    created_at := now
    expires_at := (match ttl with
                   | some t => some t
                   | none => dttl).map (fun t => now + t)
    last_accessed := now }

/-- `Cache.set` (v3.py lines 141-205): validate the key, auto-cleanup,
resolve the effective TTL, evict if a fresh key meets a full store
(`setEvictPhase`), then write the new entry at the most-recently-used end
and persist. -/
def setOp (key : String) (value : V) (ttl : Option Nat) (now : Nat)
    (s : Cache V) : SetResult × Cache V :=
  if key = "" then (SetResult.raised, s)
  else
    let s1 := if s.config.auto_cleanup then cleanupExpired now s else s
    let s2 := setEvictPhase key now s1
    let entry := setNewEntry key value ttl now s.config.default_ttl
    let s3 := { s2 with cache := removeKey key s2.cache ++ [entry] }
    let s4 := if s3.config.enable_persistence then saveToStorage s3 else s3
    (SetResult.succeeded, s4)

/-- `Cache.get` (v3.py lines 207-243): miss on an absent key; lazily remove
a found-but-expired entry (counting an expiration and a miss, persisting);
on a live hit refresh `last_accessed`, count a hit, and move the key to the
most-recently-used end. -/
def getOp (key : String) (deflt : V) (now : Nat) (s : Cache V) :
    V × Cache V :=
  match lookupEntry key s.cache with
  | none =>
    (deflt, { s with stats := { s.stats with misses := s.stats.misses + 1 } })
  | some e =>
    if e.is_expired now then
      let s1 :=
        { s with cache := removeKey key s.cache
                 stats := { s.stats with
                            expirations := s.stats.expirations + 1
                            misses := s.stats.misses + 1 } }
      (deflt, if s1.config.enable_persistence then saveToStorage s1 else s1)
    else
      let e1 := { e with last_accessed := now }
      (e1.value,
        { s with cache := removeKey key s.cache ++ [e1]
                 stats := { s.stats with hits := s.stats.hits + 1 } })

/-- `Cache.has` (v3.py lines 245-270): like `get`'s expiry handling but
with no recency update and no hit/miss bookkeeping. -/
def hasOp (key : String) (now : Nat) (s : Cache V) : Bool × Cache V :=
  match lookupEntry key s.cache with
  | none => (false, s)
  | some e =>
    if e.is_expired now then
      let s1 :=
        { s with cache := removeKey key s.cache
                 stats := { s.stats with
                            expirations := s.stats.expirations + 1 } }
      (false, if s1.config.enable_persistence then saveToStorage s1 else s1)
    else (true, s)

/-- `Cache.delete` (v3.py lines 272-291): remove the key if physically
present (expired or not), persist, report presence; touches no counter. -/
def deleteOp (key : String) (s : Cache V) : Bool × Cache V :=
  if (lookupEntry key s.cache).isSome then
    let s1 := { s with cache := removeKey key s.cache }
    (true, if s1.config.enable_persistence then saveToStorage s1 else s1)
  else (false, s)

/-- `Cache.clear` (v3.py lines 293-299). -/
def clearOp (s : Cache V) : Cache V :=
  let s1 := { s with cache := ([] : List (CacheEntry V)) }
  if s1.config.enable_persistence then saveToStorage s1 else s1

/-- `Cache.size` (v3.py lines 301-311). -/
def sizeOp (now : Nat) (s : Cache V) : Nat × Cache V :=
  let s1 := if s.config.auto_cleanup then cleanupExpired now s else s
  (s1.cache.length, s1)

/-- `Cache.keys` (v3.py lines 313-323). -/
def keysOp (now : Nat) (s : Cache V) : List String × Cache V :=
  let s1 := if s.config.auto_cleanup then cleanupExpired now s else s
  (s1.cache.map (fun e => e.key), s1)

/-- The dictionary returned by `Cache.get_stats` (v3.py lines 339-347);
the derived `hit_rate` string is presentation only and carries no
information beyond `hits` and `misses`. -/
structure StatsView where
  size : Nat
  max_size : Nat
  hits : Nat
  misses : Nat
  evictions : Nat
  expirations : Nat
deriving DecidableEq

/-- `Cache.get_stats` (v3.py lines 325-347). -/
def getStatsOp (now : Nat) (s : Cache V) : StatsView × Cache V :=
  let s1 := if s.config.auto_cleanup then cleanupExpired now s else s
  ({ size := s1.cache.length
     max_size := s1.config.max_size
     hits := s1.stats.hits
     misses := s1.stats.misses
     evictions := s1.stats.evictions
     expirations := s1.stats.expirations }, s1)

/-- Python truthiness of the `expires_at` field as used by
`_load_from_storage` line 427 (`if entry.expires_at and ...`): `None` and
the timestamp `0` are both falsy. -/
def truthyExpiresAt : Option Nat → Bool
  | none => false
  | some t => t != 0

/-- `self._cache[entry.key] = entry` on an `OrderedDict`: replace in place
when the key exists, else append at the most-recently-used end. -/
def odAssign (l : List (CacheEntry V)) (e : CacheEntry V) :
    List (CacheEntry V) :=
  if (lookupEntry e.key l).isSome then
    l.map (fun x => if x.key = e.key then e else x)
  else l ++ [e]

/-- The entry loop of `_load_from_storage` (v3.py lines 422-435): skip an
entry whose `expires_at` is truthy and in the past, insert the rest in file
order with their metadata intact. -/
def loadEntries (now : Nat) : List (CacheEntry V) → List (CacheEntry V) →
    List (CacheEntry V)
  | [], acc => acc
  | e :: rest, acc =>
    if truthyExpiresAt e.expires_at && decide (now > e.expires_at.getD 0) then
      loadEntries now rest acc
    else
      loadEntries now rest (odAssign acc e)

/-- `_load_from_storage` (v3.py lines 405-442): a no-op when the file is
absent, otherwise populate the store from the file's entry list. -/
def loadFromStorage (now : Nat) (s : Cache V) : Cache V :=
  match s.storage with
  | none => s
  | some entries => { s with cache := loadEntries now entries s.cache }

/-- `Cache.__init__` (v3.py lines 120-139): empty store, zero counters,
then a load from storage when persistence is enabled.  `file` is the
contents of the configured storage file at construction time. -/
def Cache.init (cfg : CacheConfig) (file : Option (List (CacheEntry V)))
    (now : Nat) : Cache V :=
  let base : Cache V :=
    { config := cfg
      cache := []
      stats := { hits := 0, misses := 0, evictions := 0, expirations := 0 }
      storage := file }
  if cfg.enable_persistence then loadFromStorage now base else base

/-- A cache as freshly constructed without any persisted snapshot. -/
def Cache.initEmpty (cfg : CacheConfig) : Cache V :=
  { config := cfg
    cache := []
    stats := { hits := 0, misses := 0, evictions := 0, expirations := 0 }
    storage := none }

/-- One public operation of the v3.py cache, with its argument data. -/
inductive CacheOp (V : Type) where
  | setK (key : String) (value : V) (ttl : Option Nat)
  | getK (key : String) (deflt : V)
  | hasK (key : String)
  | deleteK (key : String)
  | clearK
  | sizeK
  | keysK
  | statsK

/-- Run one public operation at instant `now`, keeping only the state. -/
def applyOp (op : CacheOp V) (now : Nat) (s : Cache V) : Cache V :=
  match op with
  | .setK k v t => (setOp k v t now s).2
  | .getK k d => (getOp k d now s).2
  | .hasK k => (hasOp k now s).2
  | .deleteK k => (deleteOp k s).2
  | .clearK => clearOp s
  | .sizeK => (sizeOp now s).2
  | .keysK => (keysOp now s).2
  | .statsK => (getStatsOp now s).2

/-- Run a whole trace of public operations, each with its clock reading. -/
def applyOps (ops : List (CacheOp V × Nat)) (s : Cache V) : Cache V :=
  match ops with
  | [] => s
  | (op, now) :: rest => applyOps rest (applyOp op now s)

/-- The states a v3.py cache can be in after a sequence of public
operations starting from an empty cache, under a clock whose readings never
decrease; the `Nat` component is the last clock reading. -/
inductive Reachable (cfg : CacheConfig) : Cache V → Nat → Prop where
  | init : Reachable cfg (Cache.initEmpty cfg) 0
  | step {s : Cache V} {t t' : Nat} (op : CacheOp V) :
      Reachable cfg s t → t ≤ t' → Reachable cfg (applyOp op t' s) t'

/-- `_evict_lru` of v2.py (lines 224-230): positional eviction, the head of
the recency order (`popitem(last=False)`), guarded on a non-empty store. -/
def evictLRUv2 (l : List (CacheEntry V)) : List (CacheEntry V) :=
  match l with
  | [] => []
  | _ :: rest => rest

/-- The store invariant every reachable state satisfies: the recency order
is sorted by `last_accessed` (head oldest), keys are unique, and no
timestamp is later than the last clock reading `t`. -/
def GoodList (l : List (CacheEntry V)) (t : Nat) : Prop :=
  l.Pairwise (fun a b => a.last_accessed ≤ b.last_accessed) ∧
  (l.map (fun e => e.key)).Nodup ∧
  ∀ e ∈ l, e.last_accessed ≤ t

/-! ### Concrete states used to exercise the definitions -/

/-- A configuration without persistence (as in most of the v3 test suite). -/
def cfgPlain : CacheConfig :=
  { max_size := 3, default_ttl := none
    enable_persistence := false, auto_cleanup := true }

/-- A configuration with persistence enabled. -/
def cfgPersist : CacheConfig :=
  { max_size := 3, default_ttl := none
    enable_persistence := true, auto_cleanup := true }

/-- A concrete entry that never expires. -/
def entA : CacheEntry Nat :=
  { key := "a", value := 10, created_at := 1
    expires_at := none, last_accessed := 1 }

/-- A concrete entry that is expired at every instant after 2. -/
def entB : CacheEntry Nat :=
  { key := "b", value := 20, created_at := 2
    expires_at := some 2, last_accessed := 2 }

/-- A two-entry cache state without persistence, zero counters. -/
def stAB : Cache Nat :=
  { config := cfgPlain, cache := [entA, entB]
    stats := { hits := 0, misses := 0, evictions := 0, expirations := 0 }
    storage := none }

/-- A third concrete entry that never expires. -/
def entC : CacheEntry Nat :=
  { key := "c", value := 30, created_at := 3
    expires_at := none, last_accessed := 3 }

/-- A cache state filled exactly to `cfgPlain.max_size`. -/
def stFull : Cache Nat :=
  { config := cfgPlain, cache := [entA, entB, entC]
    stats := { hits := 0, misses := 0, evictions := 0, expirations := 0 }
    storage := none }

/-- The state reached from an empty `cfgPlain` cache by one `set`. -/
def stOneStep : Cache Nat :=
  applyOp (CacheOp.setK "a" 0 none) 0 (Cache.initEmpty cfgPlain)

/-- The single entry `stOneStep` holds. -/
def entW : CacheEntry Nat :=
  { key := "a", value := 0, created_at := 0
    expires_at := none, last_accessed := 0 }

/-- A persistence-enabled configuration whose capacity is a single entry. -/
def cfgTiny : CacheConfig :=
  { max_size := 1, default_ttl := none
    enable_persistence := true, auto_cleanup := true }

/-- A persisted snapshot holding two never-expiring entries — more than
`cfgTiny.max_size`. -/
def snapBig : List (CacheEntry Nat) :=
  [ { key := "p", value := 1, created_at := 0
      expires_at := none, last_accessed := 0 }
  , { key := "q", value := 2, created_at := 0
      expires_at := none, last_accessed := 0 } ]

/-! ### Basic lemmas about the store operations -/

theorem lookupEntry_eq_none {k : String} {l : List (CacheEntry V)} :
    lookupEntry k l = none ↔ ∀ e ∈ l, e.key ≠ k := by
  induction l with
  | nil => simp [lookupEntry]
  | cons e es ih =>
    by_cases h : e.key = k <;> simp [lookupEntry, h, ih]

theorem lookupEntry_filter_none {k : String} {l : List (CacheEntry V)}
    (p : CacheEntry V → Bool) (h : lookupEntry k l = none) :
    lookupEntry k (l.filter p) = none := by
  rw [lookupEntry_eq_none] at h ⊢
  intro e he
  exact h e (List.mem_of_mem_filter he)

theorem removeKey_eq_self {k : String} {l : List (CacheEntry V)}
    (h : lookupEntry k l = none) : removeKey k l = l := by
  rw [lookupEntry_eq_none] at h
  exact List.filter_eq_self.mpr (fun e he => by simpa using h e he)

theorem lookupEntry_removeKey_self (k : String) (l : List (CacheEntry V)) :
    lookupEntry k (removeKey k l) = none := by
  rw [lookupEntry_eq_none]
  intro e he
  have := List.of_mem_filter he
  simpa using this

theorem lookupEntry_isSome_of_mem {e : CacheEntry V} {l : List (CacheEntry V)}
    (h : e ∈ l) : (lookupEntry e.key l).isSome := by
  induction l with
  | nil => simp at h
  | cons x xs ih =>
    rcases List.mem_cons.mp h with rfl | h
    · simp [lookupEntry]
    · by_cases hx : x.key = e.key <;> simp [lookupEntry, hx, ih h]

/-- For a store with no repeated keys, looking up the key of a member
returns exactly that member. -/
theorem lookupEntry_of_nodup {e : CacheEntry V} {l : List (CacheEntry V)}
    (hnd : (l.map (fun x => x.key)).Nodup) (h : e ∈ l) :
    lookupEntry e.key l = some e := by
  induction l with
  | nil => simp at h
  | cons x xs ih =>
    rw [List.map_cons, List.nodup_cons] at hnd
    obtain ⟨hx_not, hnd2⟩ := hnd
    rcases List.mem_cons.mp h with rfl | h
    · simp [lookupEntry]
    · have hx : x.key ≠ e.key := fun hk =>
        hx_not (hk ▸ List.mem_map_of_mem (fun x => x.key) h)
      simp [lookupEntry, hx, ih hnd2 h]

theorem removeKey_length_le (k : String) (l : List (CacheEntry V)) :
    (removeKey k l).length ≤ l.length :=
  List.length_filter_le _ _

theorem removeKey_cons_self {e : CacheEntry V} {k : String}
    (hk : e.key = k) (xs : List (CacheEntry V)) :
    removeKey k (e :: xs) = removeKey k xs := by
  simp [removeKey, List.filter_cons, hk]

theorem removeKey_cons_ne {e : CacheEntry V} {k : String}
    (hk : e.key ≠ k) (xs : List (CacheEntry V)) :
    removeKey k (e :: xs) = e :: removeKey k xs := by
  simp [removeKey, List.filter_cons, hk]

theorem removeKey_length_lt {e : CacheEntry V} {l : List (CacheEntry V)}
    (h : e ∈ l) : (removeKey e.key l).length < l.length := by
  induction l with
  | nil => simp at h
  | cons x xs ih =>
    by_cases hx : x.key = e.key
    · rw [removeKey_cons_self hx, List.length_cons]
      exact Nat.lt_succ_of_le (removeKey_length_le _ _)
    · rcases List.mem_cons.mp h with rfl | h
      · exact absurd rfl hx
      · rw [removeKey_cons_ne hx, List.length_cons, List.length_cons]
        exact Nat.succ_lt_succ (ih h)

/-- A store with no repeated keys that contains an entry under `k` loses
exactly one entry when `k` is deleted. -/
theorem removeKey_length_of_nodup {e : CacheEntry V} {l : List (CacheEntry V)}
    (hnd : (l.map (fun x => x.key)).Nodup) (h : e ∈ l) :
    (removeKey e.key l).length + 1 = l.length := by
  induction l with
  | nil => simp at h
  | cons x xs ih =>
    rw [List.map_cons, List.nodup_cons] at hnd
    obtain ⟨hx_not, hnd2⟩ := hnd
    rcases List.mem_cons.mp h with rfl | h
    · have htail : removeKey e.key xs = xs := by
        apply removeKey_eq_self
        rw [lookupEntry_eq_none]
        intro y hy hk
        exact hx_not (hk ▸ List.mem_map_of_mem (fun x => x.key) hy)
      rw [removeKey_cons_self rfl, htail, List.length_cons]
    · have hxk : x.key ≠ e.key := fun hk =>
        hx_not (hk ▸ List.mem_map_of_mem (fun x => x.key) h)
      rw [removeKey_cons_ne hxk, List.length_cons, List.length_cons]
      rw [Nat.succ_inj]
      exact ih hnd2 h

theorem lookupEntry_some {k : String} {l : List (CacheEntry V)}
    {e : CacheEntry V} (h : lookupEntry k l = some e) :
    e ∈ l ∧ e.key = k := by
  induction l with
  | nil => simp [lookupEntry] at h
  | cons x xs ih =>
    by_cases hx : x.key = k
    · rw [lookupEntry, if_pos hx, Option.some.injEq] at h
      subst h
      exact ⟨List.mem_cons_self _ _, hx⟩
    · rw [lookupEntry, if_neg hx] at h
      obtain ⟨hm, hk⟩ := ih h
      exact ⟨List.mem_cons.mpr (Or.inr hm), hk⟩

theorem lookupEntry_removeKey_none {k k2 : String} {l : List (CacheEntry V)}
    (h : lookupEntry k l = none) :
    lookupEntry k (removeKey k2 l) = none := by
  simp only [removeKey]
  exact lookupEntry_filter_none _ h

theorem lookupEntry_append_right {k : String} {l1 l2 : List (CacheEntry V)}
    (h : lookupEntry k l1 = none) :
    lookupEntry k (l1 ++ l2) = lookupEntry k l2 := by
  induction l1 with
  | nil => simp
  | cons x xs ih =>
    by_cases hx : x.key = k
    · rw [lookupEntry, if_pos hx] at h
      exact absurd h (by simp)
    · rw [lookupEntry, if_neg hx] at h
      rw [List.cons_append, lookupEntry, if_neg hx]
      exact ih h

/-- When nothing in the store is expired, `_cleanup_expired` is a no-op. -/
theorem cleanupExpired_of_live {now : Nat} {s : Cache V}
    (hlive : ∀ x ∈ s.cache, x.is_expired now = false) :
    cleanupExpired now s = s := by
  have h1 : s.cache.filter (fun e => e.is_expired now) = [] :=
    List.filter_eq_nil.mpr (fun a ha => by simp [hlive a ha])
  have h2 : s.cache.filter (fun e => !e.is_expired now) = s.cache :=
    List.filter_eq_self.mpr (fun a ha => by simp [hlive a ha])
  simp [cleanupExpired, h1, h2]

/-! ### Lemmas about the LRU selection -/

theorem foldl_lruStep_le (acc : CacheEntry V) (es : List (CacheEntry V)) :
    (es.foldl lruStep acc).last_accessed ≤ acc.last_accessed ∧
    ∀ x ∈ es, (es.foldl lruStep acc).last_accessed ≤ x.last_accessed := by
  induction es generalizing acc with
  | nil => exact ⟨le_refl _, by simp⟩
  | cons x xs ih =>
    simp only [List.foldl_cons, lruStep]
    by_cases hx : x.last_accessed < acc.last_accessed
    · simp only [hx, if_true]
      obtain ⟨h1, h2⟩ := ih x
      refine ⟨le_trans h1 (le_of_lt hx), fun y hy => ?_⟩
      rcases List.mem_cons.mp hy with rfl | hy
      · exact h1
      · exact h2 y hy
    · simp only [hx, if_false]
      obtain ⟨h1, h2⟩ := ih acc
      refine ⟨h1, fun y hy => ?_⟩
      rcases List.mem_cons.mp hy with rfl | hy
      · exact le_trans h1 (le_of_not_lt hx)
      · exact h2 y hy

theorem foldl_lruStep_mem (acc : CacheEntry V) (es : List (CacheEntry V)) :
    es.foldl lruStep acc = acc ∨ es.foldl lruStep acc ∈ es := by
  induction es generalizing acc with
  | nil => exact Or.inl rfl
  | cons x xs ih =>
    simp only [List.foldl_cons, lruStep]
    by_cases hx : x.last_accessed < acc.last_accessed
    · simp only [hx, if_true]
      rcases ih x with h | h
      · exact Or.inr (by simp [h])
      · exact Or.inr (List.mem_cons.mpr (Or.inr h))
    · simp only [hx, if_false]
      rcases ih acc with h | h
      · exact Or.inl h
      · exact Or.inr (List.mem_cons.mpr (Or.inr h))

theorem lruEntry_mem {l : List (CacheEntry V)} {lru : CacheEntry V}
    (h : lruEntry l = some lru) : lru ∈ l := by
  match l with
  | [] => simp [lruEntry] at h
  | e :: es =>
    simp only [lruEntry, Option.some.injEq] at h
    subst h
    rcases foldl_lruStep_mem e es with h | h
    · simp [h]
    · exact List.mem_cons.mpr (Or.inr h)

theorem lruEntry_min {l : List (CacheEntry V)} {lru : CacheEntry V}
    (h : lruEntry l = some lru) :
    ∀ x ∈ l, lru.last_accessed ≤ x.last_accessed := by
  match l with
  | [] => simp [lruEntry] at h
  | e :: es =>
    simp only [lruEntry, Option.some.injEq] at h
    subst h
    intro y hy
    rcases List.mem_cons.mp hy with rfl | hy
    · exact (foldl_lruStep_le y es).1
    · exact (foldl_lruStep_le e es).2 y hy

theorem lruEntry_isSome {l : List (CacheEntry V)} (h : l ≠ []) :
    (lruEntry l).isSome := by
  match l with
  | [] => exact absurd rfl h
  | e :: es => simp [lruEntry]

/-- On a list sorted by `last_accessed` the timestamp scan of v3 selects
the head, i.e. exactly v2's positional victim. -/
theorem lruEntry_of_sorted {e : CacheEntry V} {es : List (CacheEntry V)}
    (h : (e :: es).Pairwise
      (fun a b => a.last_accessed ≤ b.last_accessed)) :
    lruEntry (e :: es) = some e := by
  simp only [lruEntry, Option.some.injEq]
  have hmin : ∀ x ∈ es, e.last_accessed ≤ x.last_accessed :=
    (List.pairwise_cons.mp h).1
  clear h
  induction es with
  | nil => rfl
  | cons x xs ih =>
    have hx : ¬ x.last_accessed < e.last_accessed :=
      not_lt_of_le (hmin x (by simp))
    simp only [List.foldl_cons, lruStep, hx, if_false]
    exact ih (fun y hy => hmin y (by simp [hy]))

/-! ### Effect of each public operation on the store size and the config -/

theorem saveToStorage_config (s : Cache V) :
    (saveToStorage s).config = s.config := rfl

theorem saveToStorage_cache (s : Cache V) :
    (saveToStorage s).cache = s.cache := rfl

theorem maybeSave_config (b : Prop) [Decidable b] (s : Cache V) :
    (if b then saveToStorage s else s).config = s.config := by
  split <;> rfl

theorem maybeSave_cache (b : Prop) [Decidable b] (s : Cache V) :
    (if b then saveToStorage s else s).cache = s.cache := by
  split <;> rfl

theorem cleanupExpired_cache (now : Nat) (s : Cache V) :
    (cleanupExpired now s).cache
      = s.cache.filter (fun e => !e.is_expired now) := by
  simp only [cleanupExpired]
  split <;> rfl

theorem cleanupExpired_config (now : Nat) (s : Cache V) :
    (cleanupExpired now s).config = s.config := by
  simp only [cleanupExpired]
  split <;> rfl

theorem cleanupExpired_length_le (now : Nat) (s : Cache V) :
    (cleanupExpired now s).cache.length ≤ s.cache.length := by
  rw [cleanupExpired_cache]
  exact List.length_filter_le _ _

theorem evictLRU_config (s : Cache V) : (evictLRU s).config = s.config := by
  unfold evictLRU
  split <;> rfl

theorem evictLRU_length_lt {s : Cache V} (h : s.cache ≠ []) :
    (evictLRU s).cache.length < s.cache.length := by
  cases hl : lruEntry s.cache with
  | none =>
    have hs := lruEntry_isSome h
    rw [hl] at hs
    simp at hs
  | some lru =>
    have hlt := removeKey_length_lt (lruEntry_mem hl)
    simp only [evictLRU, hl]
    exact hlt

theorem setEvictPhase_config (key : String) (now : Nat) (s1 : Cache V) :
    (setEvictPhase key now s1).config = s1.config := by
  simp only [setEvictPhase]
  split
  · split
    · rw [evictLRU_config, cleanupExpired_config]
    · rw [cleanupExpired_config]
  · rfl

/-- Capacity behaviour of v3.py's eviction phase: starting within the
bound it stays within the bound, and whenever the key being written is
still absent afterwards there is room for it. -/
theorem setEvictPhase_length {key : String} {now : Nat} {s1 : Cache V}
    (hpos : 0 < s1.config.max_size)
    (hle : s1.cache.length ≤ s1.config.max_size) :
    (setEvictPhase key now s1).cache.length ≤ s1.config.max_size ∧
    ((lookupEntry key (setEvictPhase key now s1).cache).isNone = true →
      (setEvictPhase key now s1).cache.length < s1.config.max_size) := by
  by_cases hc : ((lookupEntry key s1.cache).isNone
      && decide (s1.cache.length ≥ s1.config.max_size)) = true
  · rw [Bool.and_eq_true] at hc
    obtain ⟨hnone, hge⟩ := hc
    have hc : ((lookupEntry key s1.cache).isNone
        && decide (s1.cache.length ≥ s1.config.max_size)) = true := by
      rw [Bool.and_eq_true]
      exact ⟨hnone, hge⟩
    have hge2 : s1.cache.length ≥ s1.config.max_size := of_decide_eq_true hge
    have hxle : (cleanupExpired now s1).cache.length ≤ s1.cache.length :=
      cleanupExpired_length_le now s1
    have hxcfg : (cleanupExpired now s1).config = s1.config :=
      cleanupExpired_config now s1
    by_cases hin : (cleanupExpired now s1).cache.length
        ≥ (cleanupExpired now s1).config.max_size
    · have hne : (cleanupExpired now s1).cache ≠ [] := by
        intro h0
        rw [hxcfg] at hin
        rw [h0] at hin
        simp at hin
        omega
      have hlt := evictLRU_length_lt hne
      have hres : setEvictPhase key now s1 = evictLRU (cleanupExpired now s1) := by
        simp only [setEvictPhase]
        rw [if_pos hc, if_pos hin]
      rw [hres]
      exact ⟨by omega, fun _ => by omega⟩
    · have hres : setEvictPhase key now s1 = cleanupExpired now s1 := by
        simp only [setEvictPhase]
        rw [if_pos hc, if_neg hin]
      rw [hres]
      rw [hxcfg] at hin
      exact ⟨by omega, fun _ => by omega⟩
  · have hres : setEvictPhase key now s1 = s1 := by
      simp only [setEvictPhase]
      rw [if_neg hc]
    rw [hres]
    refine ⟨hle, fun hnone => ?_⟩
    rw [Bool.and_eq_true, not_and_or] at hc
    rcases hc with h | h
    · rw [hnone] at h
      exact absurd rfl h
    · have : ¬ s1.cache.length ≥ s1.config.max_size := by
        intro hgt
        exact h (decide_eq_true hgt)
      omega

theorem setOp_config (key : String) (value : V) (ttl : Option Nat)
    (now : Nat) (s : Cache V) :
    (setOp key value ttl now s).2.config = s.config := by
  by_cases hk : key = ""
  · simp [setOp, hk]
  · have h1 : (if s.config.auto_cleanup then cleanupExpired now s else s).config
        = s.config := by
      split
      · exact cleanupExpired_config now s
      · rfl
    simp only [setOp, if_neg hk]
    rw [maybeSave_config]
    simp [setEvictPhase_config, h1]

theorem setOp_capacity {key : String} {value : V} {ttl : Option Nat}
    {now : Nat} {s : Cache V} (hpos : 0 < s.config.max_size)
    (hle : s.cache.length ≤ s.config.max_size) :
    (setOp key value ttl now s).2.cache.length ≤ s.config.max_size := by
  by_cases hk : key = ""
  · simp [setOp, hk]
    exact hle
  · have h1cfg : (if s.config.auto_cleanup then cleanupExpired now s else s).config
        = s.config := by
      split
      · exact cleanupExpired_config now s
      · rfl
    have h1le : (if s.config.auto_cleanup then cleanupExpired now s else s).cache.length
        ≤ s.cache.length := by
      split
      · exact cleanupExpired_length_le now s
      · exact le_refl _
    have hpos1 : 0 < (if s.config.auto_cleanup then cleanupExpired now s else s).config.max_size := by
      rw [h1cfg]; exact hpos
    have hle1 : (if s.config.auto_cleanup then cleanupExpired now s else s).cache.length
        ≤ (if s.config.auto_cleanup then cleanupExpired now s else s).config.max_size := by
      rw [h1cfg]; omega
    obtain ⟨hb, hroom⟩ := @setEvictPhase_length V key now _ hpos1 hle1
    rw [h1cfg] at hb hroom
    simp only [setOp, if_neg hk]
    rw [maybeSave_cache]
    show (removeKey key (setEvictPhase key now _).cache ++ [_]).length ≤ _
    rw [List.length_append]
    cases hlk : (lookupEntry key (setEvictPhase key now
        (if s.config.auto_cleanup then cleanupExpired now s else s)).cache) with
    | none =>
      have := hroom (by rw [hlk]; rfl)
      have hrm := removeKey_length_le key (setEvictPhase key now
        (if s.config.auto_cleanup then cleanupExpired now s else s)).cache
      simp only [List.length_cons, List.length_nil]
      omega
    | some e =>
      obtain ⟨hmem, hkey⟩ := lookupEntry_some hlk
      have hrm : (removeKey key (setEvictPhase key now
          (if s.config.auto_cleanup then cleanupExpired now s else s)).cache).length
          < (setEvictPhase key now
          (if s.config.auto_cleanup then cleanupExpired now s else s)).cache.length := by
        have hx := removeKey_length_lt hmem
        rw [hkey] at hx
        exact hx
      simp only [List.length_cons, List.length_nil]
      omega

theorem getOp_config (key : String) (d : V) (now : Nat) (s : Cache V) :
    (getOp key d now s).2.config = s.config := by
  cases hl : lookupEntry key s.cache with
  | none => simp [getOp, hl]
  | some e =>
    by_cases hexp : e.is_expired now <;>
      by_cases hp : s.config.enable_persistence <;>
        simp [getOp, hl, hexp, hp, saveToStorage]

theorem getOp_length_le (key : String) (d : V) (now : Nat) (s : Cache V) :
    (getOp key d now s).2.cache.length ≤ s.cache.length := by
  cases hl : lookupEntry key s.cache with
  | none => simp [getOp, hl]
  | some e =>
    by_cases hexp : e.is_expired now
    · by_cases hp : s.config.enable_persistence <;>
        simp [getOp, hl, hexp, hp, saveToStorage, removeKey_length_le]
    · obtain ⟨hmem, hkey⟩ := lookupEntry_some hl
      have hlt : (removeKey key s.cache).length < s.cache.length := by
        rw [← hkey]
        exact removeKey_length_lt hmem
      simp only [getOp, hl, hexp, Bool.false_eq_true, if_false,
        List.length_append, List.length_cons, List.length_nil]
      omega

theorem hasOp_config (key : String) (now : Nat) (s : Cache V) :
    (hasOp key now s).2.config = s.config := by
  cases hl : lookupEntry key s.cache with
  | none => simp [hasOp, hl]
  | some e =>
    by_cases hexp : e.is_expired now <;>
      by_cases hp : s.config.enable_persistence <;>
        simp [hasOp, hl, hexp, hp, saveToStorage]

theorem hasOp_length_le (key : String) (now : Nat) (s : Cache V) :
    (hasOp key now s).2.cache.length ≤ s.cache.length := by
  cases hl : lookupEntry key s.cache with
  | none => simp [hasOp, hl]
  | some e =>
    by_cases hexp : e.is_expired now <;>
      by_cases hp : s.config.enable_persistence <;>
        simp [hasOp, hl, hexp, hp, saveToStorage, removeKey_length_le]

theorem deleteOp_config (key : String) (s : Cache V) :
    (deleteOp key s).2.config = s.config := by
  by_cases hl : (lookupEntry key s.cache).isSome <;>
    by_cases hp : s.config.enable_persistence <;>
      simp [deleteOp, hl, hp, saveToStorage]

theorem deleteOp_length_le (key : String) (s : Cache V) :
    (deleteOp key s).2.cache.length ≤ s.cache.length := by
  by_cases hl : (lookupEntry key s.cache).isSome <;>
    by_cases hp : s.config.enable_persistence <;>
      simp [deleteOp, hl, hp, saveToStorage, removeKey_length_le]

theorem clearOp_config (s : Cache V) : (clearOp s).config = s.config := by
  by_cases hp : s.config.enable_persistence <;>
    simp [clearOp, hp, saveToStorage]

theorem clearOp_length_le (s : Cache V) :
    (clearOp s).cache.length ≤ s.cache.length := by
  by_cases hp : s.config.enable_persistence <;>
    simp [clearOp, hp, saveToStorage]

theorem cleanupIf_config (b : Bool) (now : Nat) (s : Cache V) :
    ((if b then cleanupExpired now s else s)).config = s.config := by
  split
  · exact cleanupExpired_config now s
  · rfl

theorem cleanupIf_length_le (b : Bool) (now : Nat) (s : Cache V) :
    ((if b then cleanupExpired now s else s)).cache.length
      ≤ s.cache.length := by
  split
  · exact cleanupExpired_length_le now s
  · exact le_refl _

theorem applyOp_config (op : CacheOp V) (now : Nat) (s : Cache V) :
    (applyOp op now s).config = s.config := by
  cases op with
  | setK k v t => exact setOp_config k v t now s
  | getK k d => exact getOp_config k d now s
  | hasK k => exact hasOp_config k now s
  | deleteK k => exact deleteOp_config k s
  | clearK => exact clearOp_config s
  | sizeK => exact cleanupIf_config _ now s
  | keysK => exact cleanupIf_config _ now s
  | statsK => exact cleanupIf_config _ now s

/-- One public operation preserves the capacity bound. -/
theorem applyOp_capacity {op : CacheOp V} {now : Nat} {s : Cache V}
    (hpos : 0 < s.config.max_size)
    (hle : s.cache.length ≤ s.config.max_size) :
    (applyOp op now s).cache.length ≤ s.config.max_size := by
  cases op with
  | setK k v t => exact setOp_capacity hpos hle
  | getK k d => exact le_trans (getOp_length_le k d now s) hle
  | hasK k => exact le_trans (hasOp_length_le k now s) hle
  | deleteK k => exact le_trans (deleteOp_length_le k s) hle
  | clearK => exact le_trans (clearOp_length_le s) hle
  | sizeK => exact le_trans (cleanupIf_length_le _ now s) hle
  | keysK => exact le_trans (cleanupIf_length_le _ now s) hle
  | statsK => exact le_trans (cleanupIf_length_le _ now s) hle

theorem maybeSave_stats (b : Prop) [Decidable b] (s : Cache V) :
    (if b then saveToStorage s else s).stats = s.stats := by
  split <;> rfl

theorem cleanupExpired_stats_evictions (now : Nat) (s : Cache V) :
    (cleanupExpired now s).stats.evictions = s.stats.evictions := by
  simp only [cleanupExpired]
  split <;> rfl

/-- Cleaning an already-clean store changes nothing. -/
theorem cleanupExpired_idem (now : Nat) (s : Cache V) :
    cleanupExpired now (cleanupExpired now s) = cleanupExpired now s := by
  apply cleanupExpired_of_live
  intro x hx
  rw [cleanupExpired_cache] at hx
  have hmem := (List.mem_filter.mp hx).2
  simpa using hmem

theorem nodup_keys_filter (p : CacheEntry V → Bool)
    {l : List (CacheEntry V)} (hnd : (l.map (fun x => x.key)).Nodup) :
    ((l.filter p).map (fun x => x.key)).Nodup :=
  List.Nodup.sublist ((l.filter_sublist).map (fun x => x.key)) hnd

theorem setEvictPhase_of_cond_false {key : String} {now : Nat}
    {s1 : Cache V}
    (hc : ¬ ((lookupEntry key s1.cache).isNone
        && decide (s1.cache.length ≥ s1.config.max_size)) = true) :
    setEvictPhase key now s1 = s1 := by
  simp only [setEvictPhase]
  rw [if_neg hc]

theorem setEvictPhase_of_full {key : String} {now : Nat} {s1 : Cache V}
    (hc : ((lookupEntry key s1.cache).isNone
        && decide (s1.cache.length ≥ s1.config.max_size)) = true)
    (hin : (cleanupExpired now s1).cache.length
        ≥ (cleanupExpired now s1).config.max_size) :
    setEvictPhase key now s1 = evictLRU (cleanupExpired now s1) := by
  simp only [setEvictPhase]
  rw [if_pos hc, if_pos hin]

theorem setEvictPhase_of_room {key : String} {now : Nat} {s1 : Cache V}
    (hc : ((lookupEntry key s1.cache).isNone
        && decide (s1.cache.length ≥ s1.config.max_size)) = true)
    (hin : ¬ (cleanupExpired now s1).cache.length
        ≥ (cleanupExpired now s1).config.max_size) :
    setEvictPhase key now s1 = cleanupExpired now s1 := by
  simp only [setEvictPhase]
  rw [if_pos hc, if_neg hin]

/-- Shape of a non-raising `set`: success, the new entry appended after
the eviction phase's store with the key's old copy removed, and the stats
of the eviction phase. -/
theorem setOp_state_ne {key : String} {value : V} {ttl : Option Nat}
    {now : Nat} {s : Cache V} (hk : ¬ key = "") :
    (setOp key value ttl now s).1 = SetResult.succeeded ∧
    (setOp key value ttl now s).2.cache =
      removeKey key (setEvictPhase key now
        (if s.config.auto_cleanup then cleanupExpired now s else s)).cache
      ++ [setNewEntry key value ttl now s.config.default_ttl] ∧
    (setOp key value ttl now s).2.stats =
      (setEvictPhase key now
        (if s.config.auto_cleanup then cleanupExpired now s else s)).stats := by
  refine ⟨?_, ?_, ?_⟩
  · simp only [setOp, if_neg hk]
  · simp only [setOp, if_neg hk]
    rw [maybeSave_cache]
  · simp only [setOp, if_neg hk]
    rw [maybeSave_stats]

theorem loadFromStorage_config (now : Nat) (s : Cache V) :
    (loadFromStorage now s).config = s.config := by
  unfold loadFromStorage
  split <;> rfl

theorem Cache.init_config (cfg : CacheConfig)
    (file : Option (List (CacheEntry V))) (now : Nat) :
    (Cache.init cfg file now : Cache V).config = cfg := by
  unfold Cache.init
  split
  · rw [loadFromStorage_config]
  · rfl

/-! ### The reachability invariant: sorted recency order, unique keys -/

theorem removeKey_sublist (k : String) (l : List (CacheEntry V)) :
    List.Sublist (removeKey k l) l :=
  List.filter_sublist l

theorem GoodList.sublist {l1 l2 : List (CacheEntry V)} {t : Nat}
    (h : GoodList l2 t) (hs : List.Sublist l1 l2) : GoodList l1 t := by
  obtain ⟨hp, hn, hb⟩ := h
  exact ⟨List.Pairwise.sublist hs hp,
    List.Nodup.sublist (hs.map (fun e => e.key)) hn,
    fun e he => hb e (hs.subset he)⟩

theorem GoodList.mono {l : List (CacheEntry V)} {t t2 : Nat}
    (h : GoodList l t) (ht : t ≤ t2) : GoodList l t2 := by
  obtain ⟨hp, hn, hb⟩ := h
  exact ⟨hp, hn, fun e he => le_trans (hb e he) ht⟩

/-- Appending a fresh key stamped with the current instant keeps the
invariant. -/
theorem GoodList.snoc {l : List (CacheEntry V)} {t t2 : Nat}
    {e : CacheEntry V} (h : GoodList l t) (ht : t ≤ t2)
    (hla : e.last_accessed = t2)
    (hk : lookupEntry e.key l = none) :
    GoodList (l ++ [e]) t2 := by
  obtain ⟨hp, hn, hb⟩ := h
  rw [lookupEntry_eq_none] at hk
  refine ⟨?_, ?_, ?_⟩
  · rw [List.pairwise_append]
    refine ⟨hp, by simp, ?_⟩
    intro a ha b hb2
    rw [List.mem_singleton] at hb2
    subst hb2
    rw [hla]
    exact le_trans (hb a ha) ht
  · rw [List.map_append, List.nodup_append]
    refine ⟨hn, by simp, ?_⟩
    intro a ha hb2
    simp only [List.map_cons, List.map_nil, List.mem_singleton] at hb2
    subst hb2
    obtain ⟨y, hy, hyk⟩ := List.mem_map.mp ha
    exact hk y hy hyk
  · intro x hx
    rcases List.mem_append.mp hx with hx | hx
    · exact le_trans (hb x hx) ht
    · rw [List.mem_singleton] at hx
      subst hx
      rw [hla]

theorem cleanupExpired_cache_sublist (now : Nat) (s : Cache V) :
    List.Sublist (cleanupExpired now s).cache s.cache := by
  rw [cleanupExpired_cache]
  exact List.filter_sublist _

theorem evictLRU_cache_sublist (s : Cache V) :
    List.Sublist (evictLRU s).cache s.cache := by
  unfold evictLRU
  split
  · exact List.Sublist.refl _
  · exact removeKey_sublist _ _

theorem setEvictPhase_cache_sublist (key : String) (now : Nat)
    (s1 : Cache V) : List.Sublist (setEvictPhase key now s1).cache s1.cache := by
  simp only [setEvictPhase]
  split
  · split
    · exact (evictLRU_cache_sublist _).trans (cleanupExpired_cache_sublist _ _)
    · exact cleanupExpired_cache_sublist _ _
  · exact List.Sublist.refl _

theorem cleanupIf_cache_sublist (b : Bool) (now : Nat) (s : Cache V) :
    List.Sublist ((if b then cleanupExpired now s else s)).cache s.cache := by
  split
  · exact cleanupExpired_cache_sublist _ _
  · exact List.Sublist.refl _

theorem hasOp_cache_sublist (key : String) (now : Nat) (s : Cache V) :
    List.Sublist (hasOp key now s).2.cache s.cache := by
  cases hl : lookupEntry key s.cache with
  | none => simp [hasOp, hl]
  | some e =>
    by_cases hexp : e.is_expired now
    · have hc : (hasOp key now s).2.cache = removeKey key s.cache := by
        by_cases hp : s.config.enable_persistence <;>
          simp [hasOp, hl, hexp, hp, saveToStorage]
      rw [hc]
      exact removeKey_sublist _ _
    · simp [hasOp, hl, hexp]

theorem deleteOp_cache_sublist (key : String) (s : Cache V) :
    List.Sublist (deleteOp key s).2.cache s.cache := by
  by_cases hl : (lookupEntry key s.cache).isSome
  · have hc : (deleteOp key s).2.cache = removeKey key s.cache := by
      by_cases hp : s.config.enable_persistence <;>
        simp [deleteOp, hl, hp, saveToStorage]
    rw [hc]
    exact removeKey_sublist _ _
  · simp [deleteOp, hl]

theorem clearOp_cache_sublist (s : Cache V) :
    List.Sublist (clearOp s).cache s.cache := by
  have hc : (clearOp s).cache = [] := by
    by_cases hp : s.config.enable_persistence <;>
      simp [clearOp, hp, saveToStorage]
  rw [hc]
  exact List.nil_sublist _

theorem getOp_cache_cases (k : String) (d : V) (now : Nat) (s : Cache V) :
    (List.Sublist (getOp k d now s).2.cache s.cache) ∨
    (∃ e, lookupEntry k s.cache = some e ∧ e.is_expired now = false ∧
      (getOp k d now s).2.cache
        = removeKey k s.cache ++ [{ e with last_accessed := now }]) := by
  cases hl : lookupEntry k s.cache with
  | none =>
    left
    simp [getOp, hl]
  | some e =>
    by_cases hexp : e.is_expired now
    · left
      have hc : (getOp k d now s).2.cache = removeKey k s.cache := by
        by_cases hp : s.config.enable_persistence <;>
          simp [getOp, hl, hexp, hp, saveToStorage]
      rw [hc]
      exact removeKey_sublist _ _
    · right
      exact ⟨e, rfl, by simpa using hexp, by simp [getOp, hl, hexp]⟩

/-- Each public operation at an instant `t2` no earlier than every stored
timestamp preserves the invariant. -/
theorem goodList_applyOp {op : CacheOp V} {t t2 : Nat} {s : Cache V}
    (ht : t ≤ t2) (h : GoodList s.cache t) :
    GoodList (applyOp op t2 s).cache t2 := by
  cases op with
  | setK k v ttl =>
    by_cases hk : k = ""
    · have hc : (applyOp (CacheOp.setK k v ttl) t2 s).cache = s.cache := by
        simp [applyOp, setOp, hk]
      rw [hc]
      exact h.mono ht
    · obtain ⟨_, hcache, _⟩ :=
        @setOp_state_ne V k v ttl t2 s hk
      show GoodList (setOp k v ttl t2 s).2.cache t2
      rw [hcache]
      have hsep : GoodList (setEvictPhase k t2
          (if s.config.auto_cleanup then cleanupExpired t2 s else s)).cache t :=
        h.sublist ((setEvictPhase_cache_sublist _ _ _).trans
          (cleanupIf_cache_sublist _ _ _))
      exact GoodList.snoc (hsep.sublist (removeKey_sublist _ _)) ht rfl
        (lookupEntry_removeKey_self _ _)
  | getK k d =>
    rcases getOp_cache_cases k d t2 s with hs | ⟨e, hl, hlive, hec⟩
    · exact (h.sublist hs).mono ht
    · show GoodList (getOp k d t2 s).2.cache t2
      rw [hec]
      obtain ⟨hmem, hkey⟩ := lookupEntry_some hl
      refine GoodList.snoc (h.sublist (removeKey_sublist _ _)) ht rfl ?_
      show lookupEntry e.key (removeKey k s.cache) = none
      rw [hkey]
      exact lookupEntry_removeKey_self _ _
  | hasK k => exact (h.sublist (hasOp_cache_sublist k t2 s)).mono ht
  | deleteK k => exact (h.sublist (deleteOp_cache_sublist k s)).mono ht
  | clearK => exact (h.sublist (clearOp_cache_sublist s)).mono ht
  | sizeK => exact (h.sublist (cleanupIf_cache_sublist _ t2 s)).mono ht
  | keysK => exact (h.sublist (cleanupIf_cache_sublist _ t2 s)).mono ht
  | statsK => exact (h.sublist (cleanupIf_cache_sublist _ t2 s)).mono ht

/-- Every state reachable from an empty cache under a non-decreasing clock
satisfies the invariant. -/
theorem reachable_goodList {cfg : CacheConfig} {s : Cache V} {t : Nat}
    (h : Reachable cfg s t) : GoodList s.cache t := by
  induction h with
  | init => exact ⟨by simp [Cache.initEmpty], by simp [Cache.initEmpty],
      by simp [Cache.initEmpty]⟩
  | step op hr hle ih => exact goodList_applyOp hle ih

/-! ### Characterising the constructor's load from a snapshot -/

/-- With pairwise-distinct keys whose lookups all miss the accumulator,
the load loop appends exactly the non-skipped entries in file order. -/
theorem loadEntries_eq_filter (now : Nat) (entries : List (CacheEntry V)) :
    ∀ acc, ((entries.map (fun e => e.key)).Nodup) →
    (∀ e ∈ entries, lookupEntry e.key acc = none) →
    loadEntries now entries acc
      = acc ++ entries.filter
          (fun e => !(truthyExpiresAt e.expires_at
            && decide (now > e.expires_at.getD 0))) := by
  induction entries with
  | nil =>
    intro acc _ _
    simp [loadEntries]
  | cons e rest ih =>
    intro acc hnd hdisj
    rw [List.map_cons, List.nodup_cons] at hnd
    obtain ⟨hknotin, hnd2⟩ := hnd
    by_cases hskip : (truthyExpiresAt e.expires_at
        && decide (now > e.expires_at.getD 0)) = true
    · simp only [loadEntries]
      rw [if_pos hskip,
        ih acc hnd2 (fun x hx => hdisj x (List.mem_cons.mpr (Or.inr hx))),
        List.filter_cons]
      simp [hskip]
    · have hassign : odAssign acc e = acc ++ [e] := by
        have hl := hdisj e (List.mem_cons_self _ _)
        simp [odAssign, hl]
      simp only [loadEntries]
      rw [if_neg hskip, hassign,
        ih (acc ++ [e]) hnd2 ?_, List.filter_cons]
      · simp only [Bool.not_eq_true] at hskip
        simp [hskip, List.append_assoc]
      · intro x hx
        have h1 : lookupEntry x.key acc = none :=
          hdisj x (List.mem_cons.mpr (Or.inr hx))
        rw [lookupEntry_append_right h1]
        have hxk : e.key ≠ x.key := fun hk =>
          hknotin (hk ▸ List.mem_map_of_mem (fun q => q.key) hx)
        simp [lookupEntry, hxk]

/-- The store of a persistence-enabled cache right after construction over
snapshot `saved`: the snapshot's entries in order, minus those the loader
skips (expired with a truthy `expires_at`). -/
theorem Cache.init_cache_persist {cfg : CacheConfig}
    {saved : List (CacheEntry V)} {t : Nat}
    (hp : cfg.enable_persistence = true)
    (hnd : (saved.map (fun e => e.key)).Nodup) :
    (Cache.init cfg (some saved) t : Cache V).cache
      = saved.filter (fun e => !(truthyExpiresAt e.expires_at
          && decide (t > e.expires_at.getD 0))) := by
  unfold Cache.init
  rw [if_pos hp]
  simp only [loadFromStorage]
  rw [loadEntries_eq_filter t saved [] hnd (by simp [lookupEntry])]
  simp

/-- A snapshot entry that is not expired at load time is never skipped by
the loader's truthiness test. -/
theorem keep_of_not_expired {e : CacheEntry V} {t : Nat}
    (h : e.is_expired t = false) :
    (!(truthyExpiresAt e.expires_at
      && decide (t > e.expires_at.getD 0))) = true := by
  cases hx : e.expires_at with
  | none => simp [truthyExpiresAt, hx]
  | some x =>
    have hle : ¬ t > x := by
      simpa [CacheEntry.is_expired, hx] using h
    simp [truthyExpiresAt, hx, hle]

/-- The live part of the snapshot is a subsequence of the loaded store:
every non-expired saved entry is present, in the saved relative order. -/
theorem filter_sublist_filter_keep (t : Nat) (l : List (CacheEntry V)) :
    List.Sublist (l.filter (fun e => !e.is_expired t))
      (l.filter (fun e => !(truthyExpiresAt e.expires_at
        && decide (t > e.expires_at.getD 0)))) := by
  induction l with
  | nil => simp
  | cons e rest ih =>
    rw [List.filter_cons, List.filter_cons]
    by_cases hlive : e.is_expired t
    · rw [if_neg (by simp [hlive])]
      split
      · exact List.Sublist.cons _ ih
      · exact ih
    · have hlive2 : e.is_expired t = false := by simpa using hlive
      rw [if_pos (by simp [hlive2]), if_pos (keep_of_not_expired hlive2)]
      exact List.Sublist.cons₂ _ ih

/-! ### The claim theorems -/

/-- C8: for every integer `m ≤ 0`, constructing a cache configuration with
`max_size = m` fails immediately (`CacheConfig.__init__` raises
`ValueError`, modelled as `none`), so no usable cache instance can be
built from it. -/
theorem claim_C8_invalid_construction (m : Int) (dttl : Option Nat)
    (hs ep ac : Bool) (hm : m ≤ 0) :
    CacheConfig.make m dttl hs ep ac = none := by
  simp [CacheConfig.make, hm]

theorem claim_C8_witness :
    CacheConfig.make 0 none false false false = none ∧
    CacheConfig.make (-5) (some 7) true true true = none :=
  ⟨claim_C8_invalid_construction 0 none false false false (by decide),
   claim_C8_invalid_construction (-5) (some 7) true true true (by decide)⟩

/-- C9: on every cache state, `set` with the empty key raises and leaves
the state untouched: no entry is added, removed or reordered, no counter
changes and no persistence write happens. -/
theorem claim_C9_empty_key_atomic (s : Cache V) (v : V) (ttl : Option Nat)
    (now : Nat) :
    setOp "" v ttl now s = (SetResult.raised, s) := by
  simp [setOp]

/-- C10 (implicit): `delete` on a key that is physically present but
already expired still returns `True`, removes the entry, persists when
enabled, and leaves every stats counter (in particular `expirations`)
unchanged — unlike the expiry-discovery paths of `get`/`has`/cleanup. -/
theorem claim_C10_delete_ignores_expiry (s : Cache V) (key : String)
    (now : Nat) (e : CacheEntry V)
    (hfound : lookupEntry key s.cache = some e)
    (hexp : e.is_expired now = true) :
    (deleteOp key s).1 = true ∧
    (deleteOp key s).2.cache = removeKey key s.cache ∧
    (deleteOp key s).2.stats = s.stats ∧
    (s.config.enable_persistence = true →
      (deleteOp key s).2.storage = some (removeKey key s.cache)) ∧
    (s.config.enable_persistence = false →
      (deleteOp key s).2.storage = s.storage) := by
  have hsome : (lookupEntry key s.cache).isSome = true := by
    rw [hfound]; rfl
  by_cases hp : s.config.enable_persistence <;>
    simp [deleteOp, hsome, hp, saveToStorage]

theorem claim_C10_witness :
    (deleteOp "b" stAB).1 = true ∧
    (deleteOp "b" stAB).2.cache = removeKey "b" stAB.cache ∧
    (deleteOp "b" stAB).2.stats = stAB.stats ∧
    (stAB.config.enable_persistence = true →
      (deleteOp "b" stAB).2.storage = some (removeKey "b" stAB.cache)) ∧
    (stAB.config.enable_persistence = false →
      (deleteOp "b" stAB).2.storage = stAB.storage) :=
  claim_C10_delete_ignores_expiry stAB "b" 5 entB (by decide) (by decide)

/-- C3: the `get` contract.  On an absent key: one more miss and the
default comes back.  On a key found expired: the entry is removed, the
expiration and miss counters each grow by one, a save happens when
persistence is enabled, and the default comes back.  On a live hit: one
more hit, `last_accessed` becomes the current time, the key moves to the
most-recently-used end, and the stored value comes back. -/
theorem claim_C3_get_contract (s : Cache V) (key : String) (d : V)
    (now : Nat) :
    (lookupEntry key s.cache = none →
      getOp key d now s =
        (d, { s with stats :=
                { s.stats with misses := s.stats.misses + 1 } })) ∧
    (∀ e, lookupEntry key s.cache = some e → e.is_expired now = true →
      (getOp key d now s).1 = d ∧
      (getOp key d now s).2.cache = removeKey key s.cache ∧
      (getOp key d now s).2.stats =
        { s.stats with expirations := s.stats.expirations + 1
                       misses := s.stats.misses + 1 } ∧
      (s.config.enable_persistence = true →
        (getOp key d now s).2.storage = some (removeKey key s.cache)) ∧
      (s.config.enable_persistence = false →
        (getOp key d now s).2.storage = s.storage)) ∧
    (∀ e, lookupEntry key s.cache = some e → e.is_expired now = false →
      getOp key d now s =
        (e.value,
          { s with cache := removeKey key s.cache
                            ++ [{ e with last_accessed := now }]
                   stats := { s.stats with hits := s.stats.hits + 1 } })) := by
  refine ⟨fun h => ?_, fun e he hexp => ?_, fun e he hlive => ?_⟩
  · simp [getOp, h]
  · by_cases hp : s.config.enable_persistence <;>
      simp [getOp, he, hexp, hp, saveToStorage]
  · simp [getOp, he, hlive]

theorem claim_C3_witness :
    (getOp "b" (99 : Nat) 5 stAB).1 = 99 ∧
    (getOp "b" (99 : Nat) 5 stAB).2.cache = removeKey "b" stAB.cache ∧
    (getOp "b" (99 : Nat) 5 stAB).2.stats =
      { stAB.stats with expirations := stAB.stats.expirations + 1
                        misses := stAB.stats.misses + 1 } ∧
    (stAB.config.enable_persistence = true →
      (getOp "b" (99 : Nat) 5 stAB).2.storage =
        some (removeKey "b" stAB.cache)) ∧
    (stAB.config.enable_persistence = false →
      (getOp "b" (99 : Nat) 5 stAB).2.storage = stAB.storage) :=
  (claim_C3_get_contract stAB "b" 99 5).2.1 entB (by decide) (by decide)

/-- C7: the `has` frame property.  A missing key changes nothing at all; a
live key changes nothing and answers `true`; a found-but-expired key is
lazily removed with exactly the expiration counter bumped and a save when
persistence is enabled — recency order of the remaining entries, every
`last_accessed`, and the hit/miss counters are untouched in all cases. -/
theorem claim_C7_has_frame (s : Cache V) (key : String) (now : Nat) :
    (lookupEntry key s.cache = none → hasOp key now s = (false, s)) ∧
    (∀ e, lookupEntry key s.cache = some e → e.is_expired now = false →
      hasOp key now s = (true, s)) ∧
    (∀ e, lookupEntry key s.cache = some e → e.is_expired now = true →
      (hasOp key now s).1 = false ∧
      (hasOp key now s).2.cache = removeKey key s.cache ∧
      (hasOp key now s).2.stats =
        { s.stats with expirations := s.stats.expirations + 1 } ∧
      (s.config.enable_persistence = true →
        (hasOp key now s).2.storage = some (removeKey key s.cache)) ∧
      (s.config.enable_persistence = false →
        (hasOp key now s).2.storage = s.storage)) := by
  refine ⟨fun h => ?_, fun e he hlive => ?_, fun e he hexp => ?_⟩
  · simp [hasOp, h]
  · simp [hasOp, he, hlive]
  · by_cases hp : s.config.enable_persistence <;>
      simp [hasOp, he, hexp, hp, saveToStorage]

theorem claim_C7_witness :
    hasOp "a" 5 stAB = (true, stAB) ∧ hasOp "zzz" 5 stAB = (false, stAB) :=
  ⟨(claim_C7_has_frame stAB "a" 5).2.1 entA (by decide) (by decide),
   (claim_C7_has_frame stAB "zzz" 5).1 (by decide)⟩

/-- C6, counterexample to "leaves the entry count unchanged": in `stAB`
the key `a` is present, but `set('a', 99)` at instant 5 also auto-cleans
the expired entry `b`, so the store shrinks from two entries to one. -/
theorem claim_C6_counterexample :
    ¬ ((setOp "a" (99 : Nat) none 5 stAB).2.cache.length
        = stAB.cache.length) := by decide

/-- C6 as amended: overwriting a present key — unconditionally — succeeds,
stores exactly one entry under the key, placed at the most-recently-used
end, carrying the new value with `created_at` reset to the write time and
`expires_at` to write time plus the TTL in effect (absent when none
applies), and a subsequent `get` returns the new value; the entry count is
unchanged provided no entry in the store is expired at call time
(auto-cleanup during the same call may remove expired entries). -/
theorem claim_C6_overwrite_resets (s : Cache V) (k : String) (v2 d : V)
    (ttl : Option Nat) (now : Nat) (e : CacheEntry V)
    (hk : k ≠ "")
    (hfound : lookupEntry k s.cache = some e) :
    (setOp k v2 ttl now s).1 = SetResult.succeeded ∧
    (∃ l, (setOp k v2 ttl now s).2.cache
        = l ++ [setNewEntry k v2 ttl now s.config.default_ttl] ∧
      lookupEntry k l = none) ∧
    lookupEntry k (setOp k v2 ttl now s).2.cache
      = some (setNewEntry k v2 ttl now s.config.default_ttl) ∧
    (getOp k d now (setOp k v2 ttl now s).2).1 = v2 ∧
    ((s.cache.map (fun x => x.key)).Nodup →
      (∀ x ∈ s.cache, x.is_expired now = false) →
      (setOp k v2 ttl now s).2.cache.length = s.cache.length) := by
  obtain ⟨hfst, hcache, _⟩ := @setOp_state_ne V k v2 ttl now s hk
  have hlook : lookupEntry k (setOp k v2 ttl now s).2.cache
      = some (setNewEntry k v2 ttl now s.config.default_ttl) := by
    rw [hcache, lookupEntry_append_right (lookupEntry_removeKey_self k _)]
    simp [lookupEntry, setNewEntry]
  have hexp : ∀ o : Option Nat, CacheEntry.is_expired
      ({ key := k, value := v2, created_at := now
         expires_at := o.map (fun t => now + t)
         last_accessed := now } : CacheEntry V) now = false := by
    intro o
    cases o with
    | none => simp [CacheEntry.is_expired]
    | some t =>
      simp only [Option.map_some, CacheEntry.is_expired]
      simp
  refine ⟨hfst, ⟨_, hcache, lookupEntry_removeKey_self k _⟩, hlook, ?_, ?_⟩
  · simp [getOp, hlook, setNewEntry, hexp]
  · intro hnd hlive
    have hclean : cleanupExpired now s = s := cleanupExpired_of_live hlive
    have hs1 : (if s.config.auto_cleanup then cleanupExpired now s else s)
        = s := by
      split
      · exact hclean
      · rfl
    have hcnd : ¬ ((lookupEntry k s.cache).isNone
        && decide (s.cache.length ≥ s.config.max_size)) = true := by
      rw [hfound]
      simp
    obtain ⟨hmem, hkey⟩ := lookupEntry_some hfound
    have hlen := removeKey_length_of_nodup hnd hmem
    rw [hkey] at hlen
    rw [hcache, hs1, setEvictPhase_of_cond_false hcnd]
    simpa using hlen

/-- C1, counterexample: `_load_from_storage` enforces no capacity bound,
so a cache with `max_size = 1` constructed over a two-entry snapshot still
physically holds two entries after the public operation `size()` returns. -/
theorem claim_C1_counterexample :
    ¬ ((sizeOp 0 (Cache.init cfgTiny (some snapBig) 0)).2.cache.length
        ≤ cfgTiny.max_size) := by decide

/-- C1 as amended: for every cache constructed with a positive
`max_size = m`, provided its store holds at most `m` entries right after
construction (true whenever it started empty or its loaded snapshot held
at most `m` live entries — the constructor's load path itself does not
enforce the bound), every sequence of public operations keeps the number
of stored entries at most `m` after each operation returns. -/
theorem claim_C1_capacity (cfg : CacheConfig)
    (file : Option (List (CacheEntry V))) (t0 : Nat)
    (ops : List (CacheOp V × Nat))
    (hpos : 0 < cfg.max_size)
    (hinit : (Cache.init cfg file t0 : Cache V).cache.length ≤ cfg.max_size) :
    (applyOps ops (Cache.init cfg file t0)).cache.length ≤ cfg.max_size := by
  suffices h : ∀ (ops2 : List (CacheOp V × Nat)) (s : Cache V),
      s.config = cfg → s.cache.length ≤ cfg.max_size →
      (applyOps ops2 s).cache.length ≤ cfg.max_size by
    exact h ops _ (Cache.init_config cfg file t0) hinit
  intro ops2
  induction ops2 with
  | nil =>
    intro s hcfg hle
    simpa [applyOps] using hle
  | cons p rest ih =>
    intro s hcfg hle
    obtain ⟨op, now⟩ := p
    have hcfg2 : (applyOp op now s).config = cfg := by
      rw [applyOp_config, hcfg]
    have h1 : 0 < s.config.max_size := by rw [hcfg]; exact hpos
    have h2 : s.cache.length ≤ s.config.max_size := by rw [hcfg]; exact hle
    have h3 := @applyOp_capacity V op now s h1 h2
    rw [hcfg] at h3
    simpa [applyOps] using ih _ hcfg2 h3

theorem claim_C1_witness :
    (applyOps
        [(CacheOp.setK "x" (5 : Nat) none, 1), (CacheOp.setK "y" 6 none, 2)]
        (Cache.init cfgTiny none 0)).cache.length ≤ cfgTiny.max_size :=
  claim_C1_capacity cfgTiny none 0
    [(CacheOp.setK "x" (5 : Nat) none, 1), (CacheOp.setK "y" 6 none, 2)]
    (by decide) (by decide)

theorem claim_C6_witness :
    (setOp "a" (77 : Nat) (some 4) 1 stAB).2.cache.length
      = stAB.cache.length ∧
    (getOp "a" (0 : Nat) 1 (setOp "a" (77 : Nat) (some 4) 1 stAB).2).1
      = 77 := by
  have h := claim_C6_overwrite_resets stAB "a" 77 0 (some 4) 1 entA
    (by decide) (by decide)
  exact ⟨h.2.2.2.2 (by decide) (by decide), h.2.2.2.1⟩

/-- C2: a `set` of an absent key against a store at `max_size` first drops
every currently-expired entry (whatever `auto_cleanup` says), then — only
when the store is still at capacity, i.e. nothing was expired — removes
exactly one entry, the one with the minimal `last_accessed` (earliest in
recency order among ties: the least-recently-used), counts exactly one
eviction, and returns plain success to the caller. -/
theorem claim_C2_eviction (s : Cache V) (key : String) (v : V)
    (ttl : Option Nat) (now : Nat)
    (hk : key ≠ "")
    (hnd : (s.cache.map (fun x => x.key)).Nodup)
    (habsent : lookupEntry key s.cache = none)
    (hfull : s.cache.length = s.config.max_size)
    (hpos : 0 < s.config.max_size) :
    (setOp key v ttl now s).1 = SetResult.succeeded ∧
    ((s.cache.filter (fun e => !e.is_expired now)).length
        < s.config.max_size →
      (setOp key v ttl now s).2.cache =
        s.cache.filter (fun e => !e.is_expired now)
          ++ [setNewEntry key v ttl now s.config.default_ttl] ∧
      (setOp key v ttl now s).2.stats.evictions = s.stats.evictions) ∧
    ((s.cache.filter (fun e => !e.is_expired now)).length
        = s.config.max_size →
      ∃ lru, lruEntry (s.cache.filter (fun e => !e.is_expired now))
          = some lru ∧
        (∀ x ∈ s.cache.filter (fun e => !e.is_expired now),
          lru.last_accessed ≤ x.last_accessed) ∧
        (setOp key v ttl now s).2.cache =
          removeKey lru.key (s.cache.filter (fun e => !e.is_expired now))
            ++ [setNewEntry key v ttl now s.config.default_ttl] ∧
        (removeKey lru.key
            (s.cache.filter (fun e => !e.is_expired now))).length + 1
          = (s.cache.filter (fun e => !e.is_expired now)).length ∧
        (setOp key v ttl now s).2.stats.evictions
          = s.stats.evictions + 1) := by
  obtain ⟨hfst, hcache, hstats⟩ :=
    @setOp_state_ne V key v ttl now s hk
  have hlookl : lookupEntry key (s.cache.filter (fun e => !e.is_expired now))
      = none := lookupEntry_filter_none _ habsent
  have hlivele : (s.cache.filter (fun e => !e.is_expired now)).length
      ≤ s.cache.length := List.length_filter_le _ _
  refine ⟨hfst, fun hlt => ?_, fun hfl => ?_⟩
  · have hsep : (setEvictPhase key now
        (if s.config.auto_cleanup then cleanupExpired now s else s)).cache
          = s.cache.filter (fun e => !e.is_expired now) ∧
        (setEvictPhase key now
          (if s.config.auto_cleanup then cleanupExpired now s else s)).stats.evictions
          = s.stats.evictions := by
      by_cases hac : s.config.auto_cleanup
      · rw [if_pos hac]
        have hc : ¬ ((lookupEntry key (cleanupExpired now s).cache).isNone
            && decide ((cleanupExpired now s).cache.length
              ≥ (cleanupExpired now s).config.max_size)) = true := by
          rw [cleanupExpired_cache, cleanupExpired_config]
          intro hcc
          rw [Bool.and_eq_true] at hcc
          have := of_decide_eq_true hcc.2
          omega
        rw [setEvictPhase_of_cond_false hc, cleanupExpired_cache]
        exact ⟨rfl, cleanupExpired_stats_evictions now s⟩
      · rw [if_neg hac]
        have hc : ((lookupEntry key s.cache).isNone
            && decide (s.cache.length ≥ s.config.max_size)) = true := by
          rw [Bool.and_eq_true]
          exact ⟨by rw [habsent]; rfl, decide_eq_true (by omega)⟩
        have hin : ¬ (cleanupExpired now s).cache.length
            ≥ (cleanupExpired now s).config.max_size := by
          rw [cleanupExpired_cache, cleanupExpired_config]
          omega
        rw [setEvictPhase_of_room hc hin, cleanupExpired_cache]
        exact ⟨rfl, cleanupExpired_stats_evictions now s⟩
    obtain ⟨hsc, hse⟩ := hsep
    constructor
    · rw [hcache, hsc, removeKey_eq_self hlookl]
    · rw [hstats, hse]
  · have hlivene : s.cache.filter (fun e => !e.is_expired now) ≠ [] := by
      intro h0
      rw [h0] at hfl
      simp at hfl
      omega
    cases hlr : lruEntry (s.cache.filter (fun e => !e.is_expired now)) with
    | none =>
      have hs := lruEntry_isSome hlivene
      rw [hlr] at hs
      simp at hs
    | some lru =>
      have hmin := lruEntry_min hlr
      have hmem := lruEntry_mem hlr
      have hsep : (setEvictPhase key now
          (if s.config.auto_cleanup then cleanupExpired now s else s)).cache
            = removeKey lru.key
                (s.cache.filter (fun e => !e.is_expired now)) ∧
          (setEvictPhase key now
            (if s.config.auto_cleanup then cleanupExpired now s else s)).stats.evictions
            = s.stats.evictions + 1 := by
        have hlr2 : lruEntry (cleanupExpired now s).cache = some lru := by
          rw [cleanupExpired_cache]
          exact hlr
        by_cases hac : s.config.auto_cleanup
        · rw [if_pos hac]
          have hc : ((lookupEntry key (cleanupExpired now s).cache).isNone
              && decide ((cleanupExpired now s).cache.length
                ≥ (cleanupExpired now s).config.max_size)) = true := by
            rw [cleanupExpired_cache, cleanupExpired_config,
              Bool.and_eq_true]
            exact ⟨by rw [hlookl]; rfl, decide_eq_true (by omega)⟩
          have hin : (cleanupExpired now (cleanupExpired now s)).cache.length
              ≥ (cleanupExpired now (cleanupExpired now s)).config.max_size := by
            rw [cleanupExpired_idem, cleanupExpired_cache,
              cleanupExpired_config]
            omega
          rw [setEvictPhase_of_full hc hin, cleanupExpired_idem]
          constructor
          · simp only [evictLRU, hlr2]
            rw [cleanupExpired_cache]
          · simp only [evictLRU, hlr2]
            simp [cleanupExpired_stats_evictions]
        · rw [if_neg hac]
          have hc : ((lookupEntry key s.cache).isNone
              && decide (s.cache.length ≥ s.config.max_size)) = true := by
            rw [Bool.and_eq_true]
            exact ⟨by rw [habsent]; rfl, decide_eq_true (by omega)⟩
          have hin : (cleanupExpired now s).cache.length
              ≥ (cleanupExpired now s).config.max_size := by
            rw [cleanupExpired_cache, cleanupExpired_config]
            omega
          rw [setEvictPhase_of_full hc hin]
          constructor
          · simp only [evictLRU, hlr2]
            rw [cleanupExpired_cache]
          · simp only [evictLRU, hlr2]
            simp [cleanupExpired_stats_evictions]
      obtain ⟨hsc, hse⟩ := hsep
      refine ⟨lru, rfl, hmin, ?_, ?_, ?_⟩
      · rw [hcache, hsc,
          removeKey_eq_self (lookupEntry_removeKey_none hlookl)]
      · exact removeKey_length_of_nodup (nodup_keys_filter _ hnd) hmem
      · rw [hstats, hse]

/-- C4: in every state reachable by public operations from an empty cache
under a non-decreasing clock, the head of the recency order attains the
minimal `last_accessed`; consequently v3's timestamp-scanning `_evict_lru`
removes exactly the head — the same victim v2's positional
`popitem(last=False)` removes. -/
theorem claim_C4_lru_consistency (cfg : CacheConfig) (s : Cache V) (t : Nat)
    (e : CacheEntry V) (es : List (CacheEntry V))
    (hr : Reachable cfg s t) (hne : s.cache = e :: es) :
    (∀ x ∈ s.cache, e.last_accessed ≤ x.last_accessed) ∧
    lruEntry s.cache = some e ∧
    (evictLRU s).cache = evictLRUv2 s.cache := by
  obtain ⟨hp, hn, _⟩ := reachable_goodList hr
  have hp2 : (e :: es).Pairwise
      (fun a b => a.last_accessed ≤ b.last_accessed) := hne ▸ hp
  have hn2 : ((e :: es).map (fun x => x.key)).Nodup := hne ▸ hn
  have hlru : lruEntry s.cache = some e := by
    rw [hne]
    exact lruEntry_of_sorted hp2
  have hmin : ∀ x ∈ s.cache, e.last_accessed ≤ x.last_accessed := by
    rw [hne]
    intro x hx
    rcases List.mem_cons.mp hx with rfl | hx
    · exact le_refl _
    · exact (List.pairwise_cons.mp hp2).1 x hx
  have hlook : lookupEntry e.key es = none := by
    rw [lookupEntry_eq_none]
    intro y hy hk
    rw [List.map_cons, List.nodup_cons] at hn2
    exact hn2.1 (hk ▸ List.mem_map_of_mem (fun x => x.key) hy)
  refine ⟨hmin, hlru, ?_⟩
  have hev : (evictLRU s).cache = removeKey e.key s.cache := by
    simp only [evictLRU, hlru]
  rw [hev, hne, removeKey_cons_self rfl, removeKey_eq_self hlook]
  rfl

/-- C5: for any snapshot `saved` (entries listed in the recency order they
were saved in, keys distinct, as `_save_to_storage` writes them), a
persistence-enabled cache constructed over it contains every saved entry
that is not expired at load time with all its metadata intact (`key`,
`value`, `created_at`, `expires_at`, `last_accessed` unchanged), those
entries appear in the same relative order as saved, and each such value is
retrievable with `get` from the new instance. -/
theorem claim_C5_persistence_roundtrip (cfg : CacheConfig)
    (saved : List (CacheEntry V)) (t : Nat) (d : V)
    (hp : cfg.enable_persistence = true)
    (hnd : (saved.map (fun e => e.key)).Nodup) :
    List.Sublist (saved.filter (fun e => !e.is_expired t))
      (Cache.init cfg (some saved) t : Cache V).cache ∧
    ∀ e ∈ saved, e.is_expired t = false →
      lookupEntry e.key (Cache.init cfg (some saved) t : Cache V).cache
        = some e ∧
      (getOp e.key d t (Cache.init cfg (some saved) t)).1 = e.value := by
  have hc := Cache.init_cache_persist (t := t) hp hnd
  constructor
  · rw [hc]
    exact filter_sublist_filter_keep t saved
  · intro e he hlive
    have hmemf : e ∈ saved.filter
        (fun e => !(truthyExpiresAt e.expires_at
          && decide (t > e.expires_at.getD 0))) :=
      List.mem_filter.mpr ⟨he, keep_of_not_expired hlive⟩
    have hndf := nodup_keys_filter
      (fun e => !(truthyExpiresAt e.expires_at
        && decide (t > e.expires_at.getD 0))) hnd
    have hlook : lookupEntry e.key
        (Cache.init cfg (some saved) t : Cache V).cache = some e := by
      rw [hc]
      exact lookupEntry_of_nodup hndf hmemf
    exact ⟨hlook, by simp [getOp, hlook, hlive]⟩

theorem claim_C5_witness :
    lookupEntry entA.key
      (Cache.init cfgPersist (some [entA, entC]) 5 : Cache Nat).cache
      = some entA ∧
    (getOp entA.key (0 : Nat) 5
      (Cache.init cfgPersist (some [entA, entC]) 5)).1 = entA.value :=
  (claim_C5_persistence_roundtrip cfgPersist [entA, entC] 5 0
    (by decide) (by decide)).2 entA (by decide) (by decide)

theorem claim_C4_witness :
    (∀ x ∈ stOneStep.cache, entW.last_accessed ≤ x.last_accessed) ∧
    lruEntry stOneStep.cache = some entW ∧
    (evictLRU stOneStep).cache = evictLRUv2 stOneStep.cache :=
  claim_C4_lru_consistency cfgPlain stOneStep 0 entW []
    (Reachable.step (CacheOp.setK "a" 0 none) Reachable.init (le_refl 0))
    (by decide)

theorem claim_C2_witness :
    (setOp "d" (40 : Nat) none 5 stFull).2.stats.evictions
      = stFull.stats.evictions ∧
    (setOp "d" (40 : Nat) none 2 stFull).2.stats.evictions
      = stFull.stats.evictions + 1 := by
  constructor
  · exact ((claim_C2_eviction stFull "d" 40 none 5 (by decide) (by decide)
      (by decide) (by decide) (by decide)).2.1 (by decide)).2
  · obtain ⟨lru, hlr, hmin, hc1, hc2, hev⟩ :=
      (claim_C2_eviction stFull "d" 40 none 2 (by decide) (by decide)
        (by decide) (by decide) (by decide)).2.2 (by decide)
    exact hev

end CacheV3
